import Mathlib

/-!
Verification development for the `xepak` repository.

The development shallowly embeds the parts of the code base the checked
properties are about:

* `sql-key-args/src/lib.rs` — the SQL template lexer (`SqlLexer`), the
  positional query builder (`build_pos_query`) and the occurrence data it
  produces.  Rust strings are modelled as `List Char`; the byte offsets the
  Rust code obtains from `CharIndices` are recomputed with `Char.utf8Size`.
* `src/auth.rs` — the authorization policy tree (`CheckAuthConf`), its
  `normalize` / `is_allowed` functions and `AuthorizeProcessor::new`.
* `src/types.rs` — the value model (`XepakValue`) and its numeric coercions.
  The payload of `Float` is modelled as a rational number: every finite
  `f64` denotes an exact rational, all operations the claims exercise
  (`fract`, comparison, truncation) are exact on `f64`, and the constant
  `i64::MAX as f64` is the correctly rounded value `2^63`.
* `src/schema.rs` — `convert_with_schema` and `apply_validator`.
* `xepak/src/server/mod.rs` — `RequestArgs::get_arg_value` / `has_any_arg`.

Maps (`HashMap`, `HashSet`) are modelled as association lists / lists with
the usual lookup and membership; the code only relies on lookup results.
-/

namespace Xepak

/-! ## SQL template lexer (sql-key-args/src/lib.rs)

`LexerState` mirrors the Rust `enum LexerState` exactly; the two `usize`
fields of `CurlOpen`/`CurlClose` are the brace count and the stored byte
offset of the opening `{`. -/

inductive LexerState where
  | Sql : LexerState
  | CurlOpen : Nat → Nat → LexerState
  | CurlClose : Nat → Nat → LexerState
  | StringSingle : Bool → LexerState
  | StringSingleClosing : LexerState
  | StringDouble : Bool → LexerState
  | StringDoubleClosing : LexerState
deriving DecidableEq, Repr

/-- One step of `SqlLexer::next_key_arg`: the body of the `match cur_char`
statement, for current char `c` at byte offset `off` (Rust's `self.offset`).
On the emitting arm (`CurlClose(1, offset)` seeing `}`) the Rust code
returns from `next_key_arg`; the next call restarts with `state = Sql`,
which is modelled by returning `Sql` together with the emitted range. -/
def lexStep (st : LexerState) (off : Nat) (c : Char) :
    LexerState × Option (Nat × Nat) :=
  if c = '\\' then
    match st with
    | .StringSingle e => (.StringSingle (!e), none)
    | .StringDouble e => (.StringDouble (!e), none)
    | .Sql => (.Sql, none)
    | .StringSingleClosing => (.Sql, none)
    | .StringDoubleClosing => (.Sql, none)
    | .CurlOpen n o => (.CurlOpen n o, none)
    | .CurlClose n o => (.CurlClose n o, none)
  else if c = '\'' then
    match st with
    | .Sql => (.StringSingle false, none)
    | .StringSingle e =>
        if e then (.StringSingle false, none) else (.StringSingleClosing, none)
    | .StringSingleClosing => (.StringSingle false, none)
    | .StringDoubleClosing => (.Sql, none)
    | .StringDouble e => (.StringDouble e, none)
    | .CurlOpen n o => (.CurlOpen n o, none)
    | .CurlClose n o => (.CurlClose n o, none)
  else if c = '"' then
    match st with
    | .Sql => (.StringDouble false, none)
    | .StringDouble e =>
        if e then (.StringDouble false, none) else (.StringDoubleClosing, none)
    | .StringDoubleClosing => (.StringDouble false, none)
    | .StringSingleClosing => (.Sql, none)
    | .StringSingle e => (.StringSingle e, none)
    | .CurlOpen n o => (.CurlOpen n o, none)
    | .CurlClose n o => (.CurlClose n o, none)
  else if c = '{' then
    match st with
    | .Sql => (.CurlOpen 1 off, none)
    | .StringSingleClosing => (.CurlOpen 1 off, none)
    | .StringDoubleClosing => (.CurlOpen 1 off, none)
    | .CurlOpen n o =>
        if n = 1 then (.CurlOpen 2 o, none)
        else if n > 2 then (.Sql, none)
        else (.CurlOpen n o, none)
    | .CurlClose n o => (.CurlClose n o, none)
    | .StringSingle e => (.StringSingle e, none)
    | .StringDouble e => (.StringDouble e, none)
  else if c = '}' then
    match st with
    | .StringSingleClosing => (.Sql, none)
    | .StringDoubleClosing => (.Sql, none)
    | .CurlOpen n o =>
        if n ≠ 2 then (.Sql, none) else (.CurlClose 1 o, none)
    | .CurlClose n o =>
        if n = 1 then (.Sql, some (o, off))
        else (.Sql, none)
    | .Sql => (.Sql, none)
    | .StringSingle e => (.StringSingle e, none)
    | .StringDouble e => (.StringDouble e, none)
  else
    match st with
    | .CurlOpen n o =>
        if (n = 2 ∧ (c.isAlpha ∨ c.isDigit)) ∨ c = '_' ∨ c = '-' then
          (.CurlOpen n o, none)
        else (.Sql, none)
    | .CurlClose _ _ => (.Sql, none)
    | .StringSingleClosing => (.Sql, none)
    | .StringDoubleClosing => (.Sql, none)
    | .Sql => (.Sql, none)
    | .StringSingle e => (.StringSingle e, none)
    | .StringDouble e => (.StringDouble e, none)

/-- Byte-offset/char pairs of a char list, starting at byte offset `k`;
this is the model of Rust's `CharIndices` (which yields byte offsets). -/
def charIndicesFrom (k : Nat) : List Char → List (Nat × Char)
  | [] => []
  | c :: cs => (k, c) :: charIndicesFrom (k + c.utf8Size) cs

/-- UTF-8 byte length of a char list (Rust `str::len`). -/
def byteLen (s : List Char) : Nat := (s.map Char.utf8Size).sum

/-- Repeated `next_key_arg` calls over the remaining char stream: the list
of emitted `(from, to)` byte ranges. -/
def lexList (st : LexerState) : List (Nat × Char) → List (Nat × Nat)
  | [] => []
  | (o, c) :: rest =>
      match lexStep st o c with
      | (st', none) => lexList st' rest
      | (_, some r) => r :: lexList .Sql rest

/-- All ranges emitted for a template (`SqlLexer::new(s)` iterated to the
end, keeping the `(from, to)` ranges of the emitted key args). -/
def lexRanges (s : List Char) : List (Nat × Nat) :=
  lexList .Sql (charIndicesFrom 0 s)

/-- Chars of `s` whose UTF-8 bytes lie entirely inside the byte range
`[a, b)`: the model of the Rust slice `&s[a..b]` (whose bounds, whenever
the code slices, fall on char boundaries). -/
def byteSlice (s : List Char) (a b : Nat) : List Char :=
  (charIndicesFrom 0 s).filterMap
    (fun oc => if a ≤ oc.1 ∧ oc.1 + oc.2.utf8Size ≤ b then some oc.2 else none)

/-- Captured name of an emitted range `(f, t)`: the Rust code slices
`&self.sql[(from + 2)..=(to - 2)]`, i.e. bytes `[f + 2, t - 1)`. -/
def keyOf (s : List Char) (r : Nat × Nat) : List Char :=
  byteSlice s (r.1 + 2) (r.2 - 1)

/-- Emitted occurrences of a template: captured name plus byte range, in
emission order (`SqlLexer::into_key_args`). -/
def lexOccs (s : List Char) : List (List Char × Nat × Nat) :=
  (lexRanges s).map (fun r => (keyOf s r, r))

/-- Loop body of `build_pos_query`: walk the ranges keeping the cursor
`last_index`, copying `query[last_index..start]`, emitting the positional
placeholder, and finally copying `query[last_index..]`. -/
def buildGo (s posArg : List Char) : List (Nat × Nat) → Nat → List Char
  | [], last =>
      if last < byteLen s then byteSlice s last (byteLen s) else []
  | (f, t) :: rs, last =>
      (if f > last then byteSlice s last f else []) ++ posArg ++
        buildGo s posArg rs (max last (t + 1))

/-- Model of `build_pos_query(query, ranges, pos_arg)`. -/
def build_pos_query (s : List Char) (ranges : List (Nat × Nat))
    (posArg : List Char) : List Char :=
  buildGo s posArg ranges 0

/-! ### Offset-erased shape machine

`lexStep`'s state transition and whether it emits depend only on the state
with its stored offsets erased; offsets are only stored and reported.  The
round-trip argument runs the erased machine on plain char lists. -/

inductive LShape where
  | sql : LShape
  | curlOpen : Nat → LShape
  | curlClose : Nat → LShape
  | ss : Bool → LShape
  | ssc : LShape
  | sd : Bool → LShape
  | sdc : LShape
deriving DecidableEq, Repr

/-- Erase the stored offsets of a lexer state. -/
def shapeOf : LexerState → LShape
  | .Sql => .sql
  | .CurlOpen n _ => .curlOpen n
  | .CurlClose n _ => .curlClose n
  | .StringSingle e => .ss e
  | .StringSingleClosing => .ssc
  | .StringDouble e => .sd e
  | .StringDoubleClosing => .sdc

/-- Offset-erased copy of `lexStep`; the `Bool` is `true` iff the step
emits an occurrence. -/
def stepS (sh : LShape) (c : Char) : LShape × Bool :=
  if c = '\\' then
    match sh with
    | .ss e => (.ss (!e), false)
    | .sd e => (.sd (!e), false)
    | .sql => (.sql, false)
    | .ssc => (.sql, false)
    | .sdc => (.sql, false)
    | .curlOpen n => (.curlOpen n, false)
    | .curlClose n => (.curlClose n, false)
  else if c = '\'' then
    match sh with
    | .sql => (.ss false, false)
    | .ss e => if e then (.ss false, false) else (.ssc, false)
    | .ssc => (.ss false, false)
    | .sdc => (.sql, false)
    | .sd e => (.sd e, false)
    | .curlOpen n => (.curlOpen n, false)
    | .curlClose n => (.curlClose n, false)
  else if c = '"' then
    match sh with
    | .sql => (.sd false, false)
    | .sd e => if e then (.sd false, false) else (.sdc, false)
    | .sdc => (.sd false, false)
    | .ssc => (.sql, false)
    | .ss e => (.ss e, false)
    | .curlOpen n => (.curlOpen n, false)
    | .curlClose n => (.curlClose n, false)
  else if c = '{' then
    match sh with
    | .sql => (.curlOpen 1, false)
    | .ssc => (.curlOpen 1, false)
    | .sdc => (.curlOpen 1, false)
    | .curlOpen n =>
        if n = 1 then (.curlOpen 2, false)
        else if n > 2 then (.sql, false)
        else (.curlOpen n, false)
    | .curlClose n => (.curlClose n, false)
    | .ss e => (.ss e, false)
    | .sd e => (.sd e, false)
  else if c = '}' then
    match sh with
    | .ssc => (.sql, false)
    | .sdc => (.sql, false)
    | .curlOpen n =>
        if n ≠ 2 then (.sql, false) else (.curlClose 1, false)
    | .curlClose n =>
        if n = 1 then (.sql, true)
        else (.sql, false)
    | .sql => (.sql, false)
    | .ss e => (.ss e, false)
    | .sd e => (.sd e, false)
  else
    match sh with
    | .curlOpen n =>
        if (n = 2 ∧ (c.isAlpha ∨ c.isDigit)) ∨ c = '_' ∨ c = '-' then
          (.curlOpen n, false)
        else (.sql, false)
    | .curlClose _ => (.sql, false)
    | .ssc => (.sql, false)
    | .sdc => (.sql, false)
    | .sql => (.sql, false)
    | .ss e => (.ss e, false)
    | .sd e => (.sd e, false)

/-- Whether running the erased machine over `cs` from `sh` ever emits
(with the same reset-to-`sql` dynamics as `lexList`). -/
def emitsS (sh : LShape) : List Char → Bool
  | [] => false
  | c :: cs =>
      match stepS sh c with
      | (sh', false) => emitsS sh' cs
      | (_, true) => true

/-- Stored byte offset of an in-placeholder state (the second field of
`CurlOpen`/`CurlClose`), `none` for every other state. -/
def storedOffset : LexerState → Option Nat
  | .CurlOpen _ o => some o
  | .CurlClose _ o => some o
  | _ => none

/-- Trace of the scan: the state in force when each char is consumed,
with the char and its byte offset (the same dynamics as `lexList`). -/
def lexTrace (st : LexerState) : List (Nat × Char) → List (LexerState × Nat × Char)
  | [] => []
  | (o, c) :: rest => (st, o, c) :: lexTrace (lexStep st o c).1 rest

/-- Rebuilt text of `build_pos_query` with placeholder token `?`,
computed directly over the offset/char pairs: chars before the next range
are kept, the chars of a range are dropped and replaced by one `?` at the
range start, and exhausted ranges are skipped. -/
def rebuildP : List (Nat × Char) → List (Nat × Nat) → List Char
  | l, [] => l.map Prod.snd
  | [], _ :: _ => []
  | (o, c) :: rest, (f, t) :: rs =>
      if o < f then c :: rebuildP rest ((f, t) :: rs)
      else if o ≤ t then
        (if o = f then '?' :: rebuildP rest ((f, t) :: rs)
         else rebuildP rest ((f, t) :: rs))
      else rebuildP ((o, c) :: rest) rs
termination_by l rs => (rs.length, l.length)

/-- State of the rebuilt text's scan at the current position of the
original scan: when the original scan is inside a placeholder that will
emit (its stored offset opens the next emitted range), the rebuilt scan
has already consumed the `?` standing for it and sits in the default
state; otherwise both scans sit in states of the same shape. -/
def entryShape (st : LexerState) (rs : List (Nat × Nat)) : LShape :=
  match storedOffset st, rs with
  | some o, (f, _) :: _ => if o = f then .sql else shapeOf st
  | _, _ => shapeOf st

/-- Byte position `m` is a UTF-8 char boundary of `s` (indexed from `k`):
either the end of the text or the start of some char. -/
def Boundary (k : Nat) (s : List Char) (m : Nat) : Prop :=
  m = k + byteLen s ∨ ∃ c, (m, c) ∈ charIndicesFrom k s

/-! ## Value model (src/types.rs)

The payload of `Float` is a rational number: every finite `f64` denotes an
exact rational value, and the operations the code performs on it (`fract`,
absolute value, comparison, truncation) are exact on `f64`, so the model is
faithful on all values that exist as `f64`s.  The two cast constants are
the correctly rounded values: `i64::MAX as f64` rounds up to `2^63`,
`i64::MIN as f64` is exactly `-2^63`, `f64::MAX as i128` saturates to
`i128::MAX`, `f64::MIN as i128` saturates to `i128::MIN`. -/

inductive XepakType where
  | Text : XepakType
  | Null : XepakType
  | Boolean : XepakType
  | Int : XepakType
  | Float : XepakType
deriving DecidableEq, Repr

inductive XepakValue where
  | Null : XepakValue
  | Boolean : Bool → XepakValue
  | Integer : Int → XepakValue
  | Float : ℚ → XepakValue
  | Text : String → XepakValue
deriving DecidableEq, Repr

/-- Reason string of a `XepakError::ConvertValue`; the constructors stand
for the format strings of src/types.rs, keeping the cited datum and
abstracting the rendered digits (no claim inspects the rendering). -/
inductive ConvertReason where
  | notPossible : ConvertReason
  | fractionalPart : ℚ → ConvertReason
  | outOfRange : ℚ → ConvertReason
  | outOfRangeInt : Int → ConvertReason
  | cantBeBoolean : Int → ConvertReason
  | cantBeBooleanFloat : ℚ → ConvertReason
  | parseFailure : String → ConvertReason
deriving DecidableEq, Repr

/-- Model of `XepakError`.  The `Input` message of `convert_with_schema`
is kept verbatim because a claim inspects it; `Decode` messages keep the
offending text instead of the formatted parse error. -/
inductive XepakError where
  | Cfg : String → XepakError
  | Input : String → XepakError
  | Forbidden : String → XepakError
  | Decode : String → XepakError
  | ConvertValue : XepakType → XepakType → ConvertReason → XepakError
deriving DecidableEq, Repr

/-- Truncation toward zero, the model of `f64::trunc` /
`to_int_unchecked`. -/
def ratTrunc (q : ℚ) : Int :=
  if 0 ≤ q then ⌊q⌋ else ⌈q⌉

/-- Model of `f64::fract`, i.e. `self - self.trunc()`; exact on `f64`. -/
def ratFract (q : ℚ) : ℚ := q - ratTrunc q

/-- Value of `f64::EPSILON`. -/
def f64Epsilon : ℚ := 1 / 2 ^ 52

/-- Value of `i64::MAX as f64`: `2^63 - 1` rounds to nearest, which is
`2^63` (the neighbours are `2^63 - 1024` and `2^63`). -/
def i64MaxAsF64 : ℚ := 2 ^ 63

/-- Value of `i64::MIN as f64`, exactly representable. -/
def i64MinAsF64 : ℚ := -(2 ^ 63)

/-- Value of `f64::MAX as i128` (saturating cast: `f64::MAX > i128::MAX`). -/
def f64MaxAsI128 : Int := 2 ^ 127 - 1

/-- Value of `f64::MIN as i128` (saturating cast). -/
def f64MinAsI128 : Int := -(2 ^ 127)

/-- Digits-only parse accumulating a natural number; `none` on a
non-digit or on empty input. -/
def parseDigits : List Char → Option Nat
  | [] => none
  | cs => go cs 0
where
  go : List Char → Nat → Option Nat
    | [], acc => some acc
    | c :: cs, acc =>
        if c.isDigit then go cs (acc * 10 + (c.toNat - '0'.toNat))
        else none

/-- Model of `str::parse::<i128>`: optional sign, at least one digit,
nothing else, and the value must fit in `i128`. -/
def parseI128 (s : String) : Option Int :=
  let signed : Option Int :=
    match s.toList with
    | '-' :: rest => (parseDigits rest).map (fun n => -(n : Int))
    | '+' :: rest => (parseDigits rest).map (fun n => (n : Int))
    | rest => (parseDigits rest).map (fun n => (n : Int))
  match signed with
  | some v => if v ≤ 2 ^ 127 - 1 ∧ -(2 ^ 127) ≤ v then some v else none
  | none => none

/-- Model of `str::parse::<f64>` restricted to what the claims touch: the
parse result is irrelevant to every checked claim, so only simple decimal
forms are recognised (integer part, optional fraction, optional sign). -/
def parseF64 (s : String) : Option ℚ :=
  match s.toList with
  | '-' :: rest => (parseDigits rest).map (fun n => -(n : ℚ))
  | '+' :: rest => (parseDigits rest).map (fun n => (n : ℚ))
  | rest => (parseDigits rest).map (fun n => (n : ℚ))

/-- Model of `str::parse::<bool>`: exactly `true` or `false`. -/
def parseBool (s : String) : Option Bool :=
  if s = "true" then some true
  else if s = "false" then some false
  else none

/-- Rendering of a float for `as_string`; the Rust code uses the `f64`
`Display` instance, whose digits no claim inspects, so the canonical
rational rendering stands in for it. -/
def floatText (q : ℚ) : String := toString q

/-- Model of `XepakValue::get_type`. -/
def XepakValue.get_type : XepakValue → XepakType
  | .Null => .Null
  | .Boolean _ => .Boolean
  | .Integer _ => .Int
  | .Float _ => .Float
  | .Text _ => .Text

/-- Model of `XepakValue::as_int`. -/
def XepakValue.as_int : XepakValue → Except XepakError Int
  | .Null => .error (.ConvertValue .Null .Int .notPossible)
  | .Boolean v => .ok (if v then 1 else 0)
  | .Integer v => .ok v
  | .Float v =>
      if |ratFract v| > f64Epsilon then
        .error (.ConvertValue .Float .Int (.fractionalPart v))
      else if v > i64MaxAsF64 ∨ v < i64MinAsF64 then
        .error (.ConvertValue .Float .Int (.outOfRange v))
      else
        .ok (ratTrunc v)
  | .Text v =>
      match parseI128 v with
      | some parsed => .ok parsed
      | none => .error (.ConvertValue .Text .Int (.parseFailure v))

/-- Model of `XepakValue::as_string` (never fails). -/
def XepakValue.as_string : XepakValue → Except XepakError String
  | .Null => .ok ""
  | .Boolean v => .ok (toString v)
  | .Integer v => .ok (toString v)
  | .Float v => .ok (floatText v)
  | .Text v => .ok v

/-- Model of `XepakValue::as_bool`. -/
def XepakValue.as_bool : XepakValue → Except XepakError Bool
  | .Null => .error (.ConvertValue .Null .Boolean .notPossible)
  | .Boolean v => .ok v
  | .Integer v =>
      if v = 0 then .ok false
      else if v = 1 then .ok true
      else .error (.ConvertValue .Int .Boolean (.cantBeBoolean v))
  | .Float v =>
      if v = 0 then .ok false
      else if v = 1 then .ok true
      else .error (.ConvertValue .Float .Boolean (.cantBeBooleanFloat v))
  | .Text v =>
      match parseBool v with
      | some parsed => .ok parsed
      | none => .error (.Decode v)

/-- Model of `XepakValue::as_float`.  The `i128 → f64` cast of the
`Integer` arm rounds in Rust; the model keeps the exact value, which no
claim inspects. -/
def XepakValue.as_float : XepakValue → Except XepakError ℚ
  | .Null => .error (.ConvertValue .Null .Float .notPossible)
  | .Boolean v => .ok (if v then 1 else 0)
  | .Integer v =>
      if v > f64MaxAsI128 ∨ v < f64MinAsI128 then
        .error (.ConvertValue .Int .Float (.outOfRangeInt v))
      else .ok (v : ℚ)
  | .Float v => .ok v
  | .Text v =>
      match parseF64 v with
      | some parsed => .ok parsed
      | none => .error (.Decode v)

/-! ## Schema (src/schema.rs) -/

inductive ArgSchemaScope where
  | All : ArgSchemaScope
  | Input : ArgSchemaScope
  | Output : ArgSchemaScope
deriving DecidableEq, Repr

/-- Model of `ArgSchemaValidator`; the Rust fields `from`/`to` are named
`from_`/`to_` (`from` is a Lean keyword). -/
inductive ArgSchemaValidator where
  | Range : Nat → Nat → ArgSchemaValidator
  | RangeFloat : ℚ → ℚ → ArgSchemaValidator
  | And : List ArgSchemaValidator → ArgSchemaValidator
  | NotNull : ArgSchemaValidator
  | Or : List ArgSchemaValidator → ArgSchemaValidator

structure ArgSchema where
  ty : XepakType
  scope : ArgSchemaScope
  required : Bool
  validate : List ArgSchemaValidator

/-- Model of `type Schema = HashMap<String, ArgSchema>` as an association
list; the code only performs lookups. -/
def Schema := List (String × ArgSchema)

/-- Model of `HashMap::get` on the association-list `Schema`. -/
def Schema.get (schema : Schema) (name : String) : Option ArgSchema :=
  List.lookup name schema

/-- Model of `convert_with_schema` (src/schema.rs, lines 71-104). -/
def convert_with_schema (schema : Schema) (arg_name : String)
    (value : XepakValue) (strict : Bool) : Except XepakError XepakValue :=
  match schema.get arg_name with
  | none =>
      if strict then
        .error (.Input ("Input argument \"" ++ arg_name ++
          "\" not allowed in this context!"))
      else .ok value
  | some aschema =>
      match value with
      | .Null => .ok value
      | _ =>
          match aschema.ty with
          | .Null =>
              .error (.Input ("Can not convert argument \"" ++ arg_name ++
                "\" to Null type!"))
          | .Text => do let v ← value.as_string; return .Text v
          | .Boolean => do let v ← value.as_bool; return .Boolean v
          | .Int => do let v ← value.as_int; return .Integer v
          | .Float => do let v ← value.as_float; return .Float v

/-- UTF-8 byte length of a string (Rust `String::len`). -/
def strByteLen (s : String) : Nat := byteLen s.toList

/-- Wrapping cast `i128 as usize` on a 64-bit target. -/
def i128AsUsize (v : Int) : Nat := (v % (2 ^ 64 : Int)).toNat

/-- Saturating cast `f64 as usize` on a 64-bit target. -/
def f64AsUsize (q : ℚ) : Nat :=
  if q < 0 then 0 else min (ratTrunc q).toNat (2 ^ 64 - 1)

/-- Exact value of `usize as f64` for a text length (the Rust cast rounds
for lengths above `2^53`, which no claim reaches). -/
def usizeAsF64 (n : Nat) : ℚ := (n : ℚ)

/-- Exact value of `i128 as f64` (the Rust cast rounds outside `±2^53`,
which no claim reaches). -/
def i128AsF64 (v : Int) : ℚ := (v : ℚ)

mutual

/-- Model of `apply_validator` (src/schema.rs, lines 120-219).  The
`Input` messages keep the argument name and bounds; the rendered digits
are abstracted as in `ConvertReason`. -/
def apply_validator (validator : ArgSchemaValidator) (name : String)
    (value : XepakValue) : Except XepakError Unit :=
  match validator with
  | .NotNull =>
      match value with
      | .Null =>
          .error (.Input ("Argument \"" ++ name ++
            "\" must not be null/undefined"))
      | _ => .ok ()
  | .Range from_ to_ =>
      match value with
      | .Text v =>
          let l := strByteLen v
          if l < from_ ∨ l > to_ then
            .error (.Input ("Argument \"" ++ name ++ "\" length is not within a range"))
          else .ok ()
      | .Integer v =>
          let w := i128AsUsize v
          if w < from_ ∨ w > to_ then
            .error (.Input ("Argument \"" ++ name ++ "\" value is not within a range"))
          else .ok ()
      | .Float v =>
          let w := f64AsUsize v
          if w < from_ ∨ w > to_ then
            .error (.Input ("Argument \"" ++ name ++ "\" value is not within a range"))
          else .ok ()
      | _ => .error (.Input ("Argument \"" ++ name ++ "\" must be a text"))
  | .RangeFloat from_ to_ =>
      match value with
      | .Text v =>
          let l := usizeAsF64 (strByteLen v)
          if l < from_ ∨ l > to_ then
            .error (.Input ("Argument \"" ++ name ++ "\" length is not within a range"))
          else .ok ()
      | .Integer v =>
          let w := i128AsF64 v
          if w < from_ ∨ w > to_ then
            .error (.Input ("Argument \"" ++ name ++ "\" value is not within a range"))
          else .ok ()
      | .Float v =>
          if v < from_ ∨ v > to_ then
            .error (.Input ("Argument \"" ++ name ++ "\" value is not within a range"))
          else .ok ()
      | _ => .error (.Input ("Argument \"" ++ name ++ "\" must be a text"))
  | .And nested => applyAnd nested name value
  | .Or nested => applyOr nested name value none

/-- The `And` loop: `apply_validator(v, ...)?` for each nested node. -/
def applyAnd (nested : List ArgSchemaValidator) (name : String)
    (value : XepakValue) : Except XepakError Unit :=
  match nested with
  | [] => .ok ()
  | v :: rest =>
      match apply_validator v name value with
      | .ok _ => applyAnd rest name value
      | .error e => .error e

/-- The `Or` loop: return on the first success, remember the last error,
and report it after the loop; with no nested conditions `last_error`
stays `None` and the result is `Ok`. -/
def applyOr (nested : List ArgSchemaValidator) (name : String)
    (value : XepakValue) (last_error : Option XepakError) :
    Except XepakError Unit :=
  match nested with
  | [] =>
      match last_error with
      | some e => .error e
      | none => .ok ()
  | v :: rest =>
      match apply_validator v name value with
      | .ok _ => .ok ()
      | .error e => applyOr rest name value (some e)

end

/-! ## Authorization policy (src/auth.rs) -/

inductive CheckAuthConf where
  | Role : String → CheckAuthConf
  | Id : String → CheckAuthConf
  | And : List CheckAuthConf → CheckAuthConf
  | Or : List CheckAuthConf → CheckAuthConf

/-- Model of `str::to_uppercase` on the ASCII strings the claims use
(Rust uppercases per Unicode; on ASCII both agree). -/
def rustToUppercase (s : String) : String :=
  String.mk (s.toList.map Char.toUpper)

mutual

/-- Model of `CheckAuthConf::normalize` (src/auth.rs, lines 84-97).  Note
that the source's `Or` arm builds `Self::And { .. }`, so normalizing an
`Or` node turns it into an `And` node. -/
def CheckAuthConf.normalize : CheckAuthConf → CheckAuthConf
  | .Role v => .Role (rustToUppercase v)
  | .Id v => .Id v
  | .And nested => .And (normalizeList nested)
  | .Or nested => .And (normalizeList nested)

def normalizeList : List CheckAuthConf → List CheckAuthConf
  | [] => []
  | c :: rest => c.normalize :: normalizeList rest

end

mutual

/-- Model of `CheckAuthConf::is_allowed` (src/auth.rs, lines 99-125); the
`roles` set is a list with membership. -/
def CheckAuthConf.is_allowed (conf : CheckAuthConf) (id : String)
    (roles : List String) : Bool :=
  match conf with
  | .Role v => roles.contains v
  | .Id v => id = v
  | .And nested => allowedAll nested id roles
  | .Or nested => allowedAny nested id roles

/-- The `And` loop: `check` starts `true` and flips on the first failing
nested condition. -/
def allowedAll (nested : List CheckAuthConf) (id : String)
    (roles : List String) : Bool :=
  match nested with
  | [] => true
  | c :: rest => if c.is_allowed id roles then allowedAll rest id roles else false

/-- The `Or` loop: `check` starts `false` and flips on the first
succeeding nested condition. -/
def allowedAny (nested : List CheckAuthConf) (id : String)
    (roles : List String) : Bool :=
  match nested with
  | [] => false
  | c :: rest => if c.is_allowed id roles then true else allowedAny rest id roles

end

/-- Model of `AuthorizeProcessor::new` (src/auth.rs, lines 181-196): the
`check` field it stores.  With more than one check the `Or` of the checks
is normalized; with exactly one the check is stored as-is (without
normalization); with none the field is `None`. -/
def AuthorizeProcessor.new (checks : List CheckAuthConf) :
    Option CheckAuthConf :=
  if checks.length > 1 then
    some (CheckAuthConf.normalize (.Or checks))
  else
    match checks with
    | [c] => some c
    | _ => none

/-- Decision of `AuthorizeProcessor::handle` for an authenticated caller
`(id, roles)`: with no stored check the request is allowed, otherwise
`check.is_allowed` decides (`false` becomes the `Forbidden` error). -/
def authorizeAllowed (check : Option CheckAuthConf) (id : String)
    (roles : List String) : Bool :=
  match check with
  | none => true
  | some c => c.is_allowed id roles

/-- Model of `SimpleAuthRegistry` as an association list from credential
to `(identity, roles)`, with roles already uppercased as
`SimpleAuthSpecs::put_to_registry` stores them. -/
def SimpleAuthRegistry := List (String × (String × List String))

/-- Model of the registry lookup (`XepakAppData::get_auth_data`). -/
def SimpleAuthRegistry.get_auth_data (reg : SimpleAuthRegistry)
    (api_key : String) : Option (String × List String) :=
  List.lookup api_key reg

/-! ## Request argument store (xepak/src/server/mod.rs) -/

structure RequestArgs where
  schema : Schema
  strict_schema : Bool
  path_args : List (String × XepakValue)
  args : List (String × XepakValue)
  limit : Nat
  offset : Nat

/-- Model of `RequestArgs::has_any_arg` (lines 153-158). -/
def RequestArgs.has_any_arg (ra : RequestArgs) (arg_name : String) : Bool :=
  if (List.lookup arg_name ra.path_args).isSome then true
  else (List.lookup arg_name ra.args).isSome

/-- Model of `RequestArgs::get_arg_value` (lines 160-167). -/
def RequestArgs.get_arg_value (ra : RequestArgs) (argument : String) :
    Option XepakValue :=
  let path_arg := List.lookup argument ra.path_args
  if path_arg.isNone then List.lookup argument ra.args
  else path_arg

/-- Registry of the authorization scenario: credential `abc` resolves to
identity `svcA` with role set `{ADMIN}` (roles uppercased on insertion by
`SimpleAuthSpecs::put_to_registry`). -/
def registryAbc : SimpleAuthRegistry := [("abc", ("svcA", ["ADMIN"]))]

/-- Request-argument store with the name `a` bound in both the path map
and the query/body map, used as the concrete instance for the precedence
property. -/
def demoRequestArgs : RequestArgs where
  schema := []
  strict_schema := false
  path_args := [("a", XepakValue.Text "from-path")]
  args := [("a", XepakValue.Text "from-query")]
  limit := 0
  offset := 0

/-- Schema with one argument `y` declared of the `Null` type, used as the
concrete instance for `convert_with_schema` properties. -/
def demoNullSchema : Schema :=
  [("y", { ty := XepakType.Null, scope := ArgSchemaScope.All,
           required := false, validate := [] })]

/-! ## Theorems -/

theorem shape_lexStep (st : LexerState) (off : Nat) (c : Char) :
    shapeOf (lexStep st off c).1 = (stepS (shapeOf st) c).1 ∧
      ((lexStep st off c).2.isSome = (stepS (shapeOf st) c).2) := by
  cases st <;>
    simp only [lexStep, stepS, shapeOf] <;>
    split_ifs <;>
    simp_all [shapeOf]

theorem shape_lexStep1 (st : LexerState) (off : Nat) (c : Char) :
    shapeOf (lexStep st off c).1 = (stepS (shapeOf st) c).1 :=
  (shape_lexStep st off c).1

theorem shape_lexStep2 (st : LexerState) (off : Nat) (c : Char) :
    (lexStep st off c).2.isSome = (stepS (shapeOf st) c).2 :=
  (shape_lexStep st off c).2

theorem charIndicesFrom_map_snd (k : Nat) (s : List Char) :
    (charIndicesFrom k s).map Prod.snd = s := by
  induction s generalizing k with
  | nil => rfl
  | cons c cs ih => simp [charIndicesFrom, ih]

theorem charIndicesFrom_le (k : Nat) (s : List Char) :
    ∀ p ∈ charIndicesFrom k s, k ≤ p.1 := by
  induction s generalizing k with
  | nil => simp [charIndicesFrom]
  | cons c cs ih =>
      intro p hp
      simp only [charIndicesFrom, List.mem_cons] at hp
      rcases hp with rfl | hp
      · exact le_refl k
      · exact le_trans (Nat.le_add_right k c.utf8Size) (ih _ p hp)

theorem utf8Size_pos (c : Char) : 0 < c.utf8Size := by
  simp only [Char.utf8Size]
  split_ifs <;> norm_num

theorem lexStep_emit (st : LexerState) (off : Nat) (c : Char) (r : Nat × Nat)
    (h : (lexStep st off c).2 = some r) :
    st = .CurlClose 1 r.1 ∧ c = '}' ∧ r.2 = off ∧
      (lexStep st off c).1 = .Sql := by
  cases st <;> simp only [lexStep] at h ⊢ <;> split_ifs at h ⊢ <;>
    simp_all <;> simp [← h]

theorem lexStep_stored (st : LexerState) (off : Nat) (c : Char) (o' : Nat)
    (h : storedOffset (lexStep st off c).1 = some o') :
    storedOffset st = some o' ∨
      (o' = off ∧ c = '{' ∧
        (st = .Sql ∨ st = .StringSingleClosing ∨ st = .StringDoubleClosing) ∧
        (lexStep st off c).1 = .CurlOpen 1 off) := by
  cases st <;> simp only [lexStep] at h ⊢ <;> split_ifs at h ⊢ <;>
    simp_all [storedOffset]

theorem stepS_qmark :
    stepS .sql '?' = (.sql, false) ∧ stepS .ssc '?' = (.sql, false) ∧
      stepS .sdc '?' = (.sql, false) := by
  refine ⟨rfl, rfl, rfl⟩

theorem lexList_eq_nil_iff (pairs : List (Nat × Char)) (st : LexerState) :
    lexList st pairs = [] ↔
      emitsS (shapeOf st) (pairs.map Prod.snd) = false := by
  induction pairs generalizing st with
  | nil => simp [lexList, emitsS]
  | cons p rest ih =>
      obtain ⟨o, c⟩ := p
      have h1 := shape_lexStep1 st o c
      have h2 := shape_lexStep2 st o c
      rcases h : lexStep st o c with ⟨st1, em⟩
      rw [h] at h1 h2
      rcases hq : stepS (shapeOf st) c with ⟨sh1, b⟩
      rw [hq] at h1 h2
      simp only at h1 h2
      cases em with
      | none =>
          simp only [Option.isSome_none] at h2
          simp only [lexList, h, List.map_cons, emitsS, hq, ← h2]
          rw [← h1]
          exact ih st1
      | some r =>
          simp only [Option.isSome_some] at h2
          simp only [lexList, h, List.map_cons, emitsS, hq, ← h2]
          simp

theorem lexList_bounds (s : List Char) : ∀ (k : Nat) (st : LexerState),
    (∀ o, storedOffset st = some o → o < k) →
    ∀ r ∈ lexList st (charIndicesFrom k s),
      (storedOffset st = some r.1 ∨ k ≤ r.1) ∧ r.1 < r.2 ∧ k ≤ r.2 := by
  induction s with
  | nil =>
      intro k st hst r hr
      simp [charIndicesFrom, lexList] at hr
  | cons c cs ih =>
      intro k st hst r hr
      have hsz : 0 < c.utf8Size := utf8Size_pos c
      rcases h : lexStep st k c with ⟨st1, em⟩
      cases em with
      | none =>
          simp only [charIndicesFrom, lexList, h] at hr
          have hst1 : ∀ o, storedOffset st1 = some o → o < k + c.utf8Size := by
            intro o ho
            have := lexStep_stored st k c o (by rw [h]; exact ho)
            rcases this with hx | ⟨rfl, -, -, -⟩
            · exact lt_of_lt_of_le (hst o hx) (Nat.le_add_right _ _)
            · omega
          obtain ⟨hd, hlt, hge⟩ := ih (k + c.utf8Size) st1 hst1 r hr
          refine ⟨?_, hlt, by omega⟩
          rcases hd with hd | hd
          · have := lexStep_stored st k c r.1 (by rw [h]; exact hd)
            rcases this with hx | ⟨rfl, -, -, -⟩
            · exact Or.inl hx
            · exact Or.inr (le_refl _)
          · exact Or.inr (by omega)
      | some r0 =>
          obtain ⟨hcc, -, ht0, hsql⟩ := lexStep_emit st k c r0 (by rw [h])
          rw [h] at hsql
          simp only at hsql
          simp only [charIndicesFrom, lexList, h, List.mem_cons] at hr
          rcases hr with rfl | hr
          · have hstored : storedOffset st = some r.1 := by
              rw [hcc]; rfl
            exact ⟨Or.inl hstored, by
              have := hst r.1 hstored; omega, by omega⟩
          · subst hsql
            obtain ⟨hd, hlt, hge⟩ := ih (k + c.utf8Size) .Sql
              (by intro o ho; simp [storedOffset] at ho) r hr
            refine ⟨?_, hlt, by omega⟩
            rcases hd with hd | hd
            · simp [storedOffset] at hd
            · exact Or.inr (by omega)

theorem lexList_pairwise (s : List Char) : ∀ (k : Nat) (st : LexerState),
    (∀ o, storedOffset st = some o → o < k) →
    List.Pairwise (fun a b => a.2 < b.1) (lexList st (charIndicesFrom k s)) := by
  induction s with
  | nil =>
      intro k st hst
      simp [charIndicesFrom, lexList]
  | cons c cs ih =>
      intro k st hst
      have hsz : 0 < c.utf8Size := utf8Size_pos c
      rcases h : lexStep st k c with ⟨st1, em⟩
      cases em with
      | none =>
          simp only [charIndicesFrom, lexList, h]
          refine ih (k + c.utf8Size) st1 ?_
          intro o ho
          have := lexStep_stored st k c o (by rw [h]; exact ho)
          rcases this with hx | ⟨rfl, -, -, -⟩
          · exact lt_of_lt_of_le (hst o hx) (Nat.le_add_right _ _)
          · omega
      | some r0 =>
          obtain ⟨hcc, -, ht0, hsql⟩ := lexStep_emit st k c r0 (by rw [h])
          rw [h] at hsql
          simp only at hsql
          subst hsql
          simp only [charIndicesFrom, lexList, h]
          refine List.pairwise_cons.mpr ⟨?_, ?_⟩
          · intro b hb
            obtain ⟨hd, -, -⟩ := lexList_bounds cs (k + c.utf8Size) .Sql
              (by intro o ho; simp [storedOffset] at ho) b hb
            rcases hd with hd | hd
            · simp [storedOffset] at hd
            · omega
          · exact ih (k + c.utf8Size) .Sql
              (by intro o ho; simp [storedOffset] at ho)

theorem lexList_braces (s : List Char) : ∀ (k : Nat) (st : LexerState),
    (∀ o, storedOffset st = some o → o < k) →
    ∀ r ∈ lexList st (charIndicesFrom k s),
      ((r.1, '{') ∈ charIndicesFrom k s ∨ storedOffset st = some r.1) ∧
        (r.2, '}') ∈ charIndicesFrom k s := by
  induction s with
  | nil =>
      intro k st hst r hr
      simp [charIndicesFrom, lexList] at hr
  | cons c cs ih =>
      intro k st hst r hr
      rcases h : lexStep st k c with ⟨st1, em⟩
      cases em with
      | none =>
          simp only [charIndicesFrom, lexList, h] at hr
          have hst1 : ∀ o, storedOffset st1 = some o → o < k + c.utf8Size := by
            intro o ho
            have := lexStep_stored st k c o (by rw [h]; exact ho)
            rcases this with hx | ⟨rfl, -, -, -⟩
            · exact lt_of_lt_of_le (hst o hx) (Nat.le_add_right _ _)
            · exact Nat.lt_add_of_pos_right (utf8Size_pos c)
          obtain ⟨hf, ht⟩ := ih (k + c.utf8Size) st1 hst1 r hr
          refine ⟨?_, by simp [charIndicesFrom]; right; exact ht⟩
          rcases hf with hf | hf
          · exact Or.inl (by simp [charIndicesFrom]; right; exact hf)
          · have := lexStep_stored st k c r.1 (by rw [h]; exact hf)
            rcases this with hx | ⟨hoff, hc, -, -⟩
            · exact Or.inr hx
            · subst hc
              exact Or.inl (by simp [charIndicesFrom, hoff])
      | some r0 =>
          obtain ⟨hcc, hc, ht0, hsql⟩ := lexStep_emit st k c r0 (by rw [h])
          rw [h] at hsql
          simp only at hsql
          subst hsql
          simp only [charIndicesFrom, lexList, h, List.mem_cons] at hr
          rcases hr with rfl | hr
          · subst hc
            refine ⟨Or.inr (by rw [hcc]; rfl), ?_⟩
            simp [charIndicesFrom, ← ht0]
          · obtain ⟨hf, ht⟩ := ih (k + c.utf8Size) .Sql
              (by intro o ho; simp [storedOffset] at ho) r hr
            refine ⟨?_, by simp [charIndicesFrom]; right; exact ht⟩
            rcases hf with hf | hf
            · exact Or.inl (by simp [charIndicesFrom]; right; exact hf)
            · simp [storedOffset] at hf

theorem lexTrace_le (s : List Char) : ∀ (k : Nat) (st : LexerState),
    ∀ p ∈ lexTrace st (charIndicesFrom k s), k ≤ p.2.1 := by
  induction s with
  | nil =>
      intro k st p hp
      simp [charIndicesFrom, lexTrace] at hp
  | cons c cs ih =>
      intro k st p hp
      simp only [charIndicesFrom, lexTrace, List.mem_cons] at hp
      rcases hp with rfl | hp
      · simp
      · exact le_trans (Nat.le_add_right _ _) (ih _ _ p hp)

theorem lexList_open_state (s : List Char) : ∀ (k : Nat) (st : LexerState),
    (∀ o, storedOffset st = some o → o < k) →
    ∀ r ∈ lexList st (charIndicesFrom k s),
      ∀ p ∈ lexTrace st (charIndicesFrom k s), p.2.1 = r.1 →
        (p.1 = .Sql ∨ p.1 = .StringSingleClosing ∨
          p.1 = .StringDoubleClosing) ∧ p.2.2 = '{' := by
  induction s with
  | nil =>
      intro k st hst r hr
      simp [charIndicesFrom, lexList] at hr
  | cons c cs ih =>
      intro k st hst r hr p hp hpf
      have hsz : 0 < c.utf8Size := utf8Size_pos c
      rcases h : lexStep st k c with ⟨st1, em⟩
      have hp1 : p = (st, k, c) ∨ p ∈ lexTrace st1 (charIndicesFrom (k + c.utf8Size) cs) := by
        simp only [charIndicesFrom, lexTrace, h, List.mem_cons] at hp
        exact hp
      cases em with
      | some r0 =>
          obtain ⟨hcc, hc, ht0, hsql⟩ := lexStep_emit st k c r0 (by rw [h])
          rw [h] at hsql
          simp only at hsql
          subst hsql
          simp only [charIndicesFrom, lexList, h, List.mem_cons] at hr
          rcases hr with rfl | hr
          · have hstored : storedOffset st = some r.1 := by rw [hcc]; rfl
            have hflt : r.1 < k := hst r.1 hstored
            rcases hp1 with rfl | hp1
            · simp only at hpf
              omega
            · have := lexTrace_le cs (k + c.utf8Size) .Sql p hp1
              omega
          · have hge : k + c.utf8Size ≤ r.1 := by
              obtain ⟨hd, -, -⟩ := lexList_bounds cs (k + c.utf8Size) .Sql
                (by intro o ho; simp [storedOffset] at ho) r hr
              rcases hd with hd | hd
              · simp [storedOffset] at hd
              · exact hd
            rcases hp1 with rfl | hp1
            · simp only at hpf
              omega
            · exact ih (k + c.utf8Size) .Sql
                (by intro o ho; simp [storedOffset] at ho) r hr p hp1 hpf
      | none =>
          simp only [charIndicesFrom, lexList, h] at hr
          have hst1 : ∀ o, storedOffset st1 = some o → o < k + c.utf8Size := by
            intro o ho
            have := lexStep_stored st k c o (by rw [h]; exact ho)
            rcases this with hx | ⟨rfl, -, -, -⟩
            · exact lt_of_lt_of_le (hst o hx) (Nat.le_add_right _ _)
            · omega
          rcases hp1 with rfl | hp1
          · simp only at hpf
            obtain ⟨hd, -, -⟩ := lexList_bounds cs (k + c.utf8Size) st1 hst1 r hr
            rcases hd with hd | hd
            · rw [← hpf] at hd
              have := lexStep_stored st k c k (by rw [h]; exact hd)
              rcases this with hx | ⟨-, hc, hgood, -⟩
              · exact absurd (hst k hx) (by omega)
              · exact ⟨hgood, hc⟩
            · omega
          · exact ih (k + c.utf8Size) st1 hst1 r hr p hp1 hpf

theorem entryShape_nil (st : LexerState) : entryShape st [] = shapeOf st := by
  cases st <;> rfl

theorem entryShape_cons (st : LexerState) (f t : Nat)
    (rs : List (Nat × Nat)) :
    entryShape st ((f, t) :: rs) =
      if storedOffset st = some f then .sql else shapeOf st := by
  cases st <;> simp [entryShape, storedOffset]

theorem entryShape_none (st : LexerState) (rs : List (Nat × Nat))
    (h : storedOffset st = none) : entryShape st rs = shapeOf st := by
  cases rs with
  | nil => exact entryShape_nil st
  | cons r rs' =>
      obtain ⟨f, t⟩ := r
      rw [entryShape_cons, h]
      simp

theorem rebuildP_ranges_nil (l : List (Nat × Char)) :
    rebuildP l [] = l.map Prod.snd := by
  cases l <;> simp [rebuildP]

theorem rebuildP_cons_cons (o : Nat) (c : Char) (rest : List (Nat × Char))
    (f t : Nat) (rs : List (Nat × Nat)) :
    rebuildP ((o, c) :: rest) ((f, t) :: rs) =
      if o < f then c :: rebuildP rest ((f, t) :: rs)
      else if o ≤ t then
        (if o = f then '?' :: rebuildP rest ((f, t) :: rs)
         else rebuildP rest ((f, t) :: rs))
      else rebuildP ((o, c) :: rest) rs := by
  rw [rebuildP]

theorem rebuildP_drop (pairs : List (Nat × Char)) (f t : Nat)
    (rs : List (Nat × Nat)) (hft : f ≤ t) (h : ∀ p ∈ pairs, t < p.1) :
    rebuildP pairs ((f, t) :: rs) = rebuildP pairs rs := by
  induction pairs with
  | nil => cases rs <;> simp [rebuildP]
  | cons p rest ih =>
      obtain ⟨o, c⟩ := p
      have ho : t < o := h (o, c) (List.mem_cons_self _ _)
      rw [rebuildP_cons_cons, if_neg (by omega), if_neg (by omega)]

/-- Core of the round-trip property: scanning the rebuilt text (ranges
replaced by `?`) from the state matching the original scan never emits.
The rebuilt scan sits in a state of the same shape as the original scan,
except inside a placeholder that will emit, where the rebuilt scan has
already consumed the `?` and sits in the default state. -/
theorem roundTripG (s : List Char) : ∀ (k : Nat) (st : LexerState),
    (∀ o, storedOffset st = some o → o < k) →
    emitsS (entryShape st (lexList st (charIndicesFrom k s)))
      (rebuildP (charIndicesFrom k s) (lexList st (charIndicesFrom k s))) =
      false := by
  induction s with
  | nil =>
      intro k st hst
      simp [charIndicesFrom, lexList, rebuildP, emitsS]
  | cons c cs ih =>
      intro k st hst
      have hsz := utf8Size_pos c
      rcases h : lexStep st k c with ⟨st1, em⟩
      have h1 := shape_lexStep1 st k c
      have h2 := shape_lexStep2 st k c
      rw [h] at h1 h2
      simp only at h1 h2
      cases em with
      | some r0 =>
          obtain ⟨f0, t0⟩ := r0
          obtain ⟨hcc, hc, ht0, hsql⟩ := lexStep_emit st k c (f0, t0) (by rw [h])
          rw [h] at hsql
          simp only at hsql ht0
          subst hsql
          have hstored : storedOffset st = some f0 := by rw [hcc]; rfl
          have hflt : f0 < k := hst _ hstored
          have hll : lexList st (charIndicesFrom k (c :: cs)) =
              (f0, t0) :: lexList .Sql (charIndicesFrom (k + c.utf8Size) cs) := by
            simp [charIndicesFrom, lexList, h]
          rw [hll, entryShape_cons, if_pos hstored]
          have hrb1 : rebuildP (charIndicesFrom k (c :: cs))
              ((f0, t0) :: lexList .Sql (charIndicesFrom (k + c.utf8Size) cs)) =
              rebuildP (charIndicesFrom (k + c.utf8Size) cs)
                ((f0, t0) :: lexList .Sql (charIndicesFrom (k + c.utf8Size) cs)) := by
            rw [show charIndicesFrom k (c :: cs) =
              (k, c) :: charIndicesFrom (k + c.utf8Size) cs from rfl]
            rw [rebuildP_cons_cons, if_neg (by omega), if_pos (by omega),
              if_neg (by omega)]
          rw [hrb1, rebuildP_drop _ f0 t0 _ (by omega)
            (by intro p hp; have := charIndicesFrom_le _ _ p hp; omega)]
          have := ih (k + c.utf8Size) .Sql
            (by intro o ho; simp [storedOffset] at ho)
          rwa [entryShape_none _ _ (by rfl)] at this
      | none =>
          have hst1 : ∀ o, storedOffset st1 = some o → o < k + c.utf8Size := by
            intro o ho
            have := lexStep_stored st k c o (by rw [h]; exact ho)
            rcases this with hx | ⟨rfl, -, -, -⟩
            · exact lt_of_lt_of_le (hst o hx) (Nat.le_add_right _ _)
            · omega
          have hll : lexList st (charIndicesFrom k (c :: cs)) =
              lexList st1 (charIndicesFrom (k + c.utf8Size) cs) := by
            simp [charIndicesFrom, lexList, h]
          rw [hll]
          have hih := ih (k + c.utf8Size) st1 hst1
          rcases hrs : lexList st1 (charIndicesFrom (k + c.utf8Size) cs) with
            _ | ⟨⟨f, t⟩, rs'⟩
          · rw [entryShape_nil]
            have hrb : rebuildP (charIndicesFrom k (c :: cs))
                ([] : List (Nat × Nat)) =
                c :: (charIndicesFrom (k + c.utf8Size) cs).map Prod.snd := by
              rw [rebuildP_ranges_nil]
              rfl
            rw [hrb]
            rcases hq : stepS (shapeOf st) c with ⟨sh1, b⟩
            rw [hq] at h1 h2
            simp only at h1 h2
            simp only [Option.isSome_none] at h2
            simp only [emitsS, hq, ← h2]
            rw [← h1]
            exact (lexList_eq_nil_iff _ st1).mp hrs
          · rw [hrs] at hih
            obtain ⟨hd, hflt2, hge⟩ := lexList_bounds cs (k + c.utf8Size) st1
              hst1 (f, t) (by rw [hrs]; exact List.mem_cons_self _ _)
            simp only at hd hflt2 hge
            by_cases hf : f = k
            · have hd1 : storedOffset st1 = some f := by
                rcases hd with hd | hd
                · exact hd
                · omega
              have hcreate := lexStep_stored st k c f (by rw [h]; exact hd1)
              rcases hcreate with hx | ⟨-, hcbrace, hgood, -⟩
              · exact absurd (hst f hx) (by omega)
              · have hrb : rebuildP (charIndicesFrom k (c :: cs))
                    ((f, t) :: rs') =
                    '?' :: rebuildP (charIndicesFrom (k + c.utf8Size) cs)
                      ((f, t) :: rs') := by
                  rw [show charIndicesFrom k (c :: cs) =
                    (k, c) :: charIndicesFrom (k + c.utf8Size) cs from rfl]
                  rw [rebuildP_cons_cons, if_neg (by omega),
                    if_pos (by omega), if_pos (by omega)]
                rw [hrb]
                have hstn : storedOffset st = none := by
                  rcases hgood with rfl | rfl | rfl <;> rfl
                rw [entryShape_none st _ hstn]
                have hq : stepS (shapeOf st) '?' = (.sql, false) := by
                  rcases hgood with rfl | rfl | rfl <;> rfl
                simp only [emitsS, hq]
                rw [entryShape_cons, if_pos hd1] at hih
                exact hih
            · rcases hd with hd1 | hd2
              · have hback := lexStep_stored st k c f (by rw [h]; exact hd1)
                rcases hback with hx | ⟨hoff, -, -, -⟩
                · have hfk : f < k := hst f hx
                  have hrb : rebuildP (charIndicesFrom k (c :: cs))
                      ((f, t) :: rs') =
                      rebuildP (charIndicesFrom (k + c.utf8Size) cs)
                        ((f, t) :: rs') := by
                    rw [show charIndicesFrom k (c :: cs) =
                      (k, c) :: charIndicesFrom (k + c.utf8Size) cs from rfl]
                    rw [rebuildP_cons_cons, if_neg (by omega),
                      if_pos (by omega), if_neg (by omega)]
                  rw [hrb, entryShape_cons, if_pos hx]
                  rw [entryShape_cons, if_pos hd1] at hih
                  exact hih
                · omega
              · have hrb : rebuildP (charIndicesFrom k (c :: cs))
                    ((f, t) :: rs') =
                    c :: rebuildP (charIndicesFrom (k + c.utf8Size) cs)
                      ((f, t) :: rs') := by
                  rw [show charIndicesFrom k (c :: cs) =
                    (k, c) :: charIndicesFrom (k + c.utf8Size) cs from rfl]
                  rw [rebuildP_cons_cons, if_pos (by omega)]
                rw [hrb]
                have hes : entryShape st ((f, t) :: rs') = shapeOf st := by
                  rw [entryShape_cons]
                  rcases hso : storedOffset st with _ | o0
                  · simp
                  · have := hst o0 hso
                    rw [if_neg (by simp only [Option.some.injEq]; omega)]
                rw [hes]
                rcases hq : stepS (shapeOf st) c with ⟨sh1, b⟩
                rw [hq] at h1 h2
                simp only at h1 h2
                simp only [Option.isSome_none] at h2
                simp only [emitsS, hq, ← h2]
                rw [← h1]
                have hes1 : entryShape st1 ((f, t) :: rs') = shapeOf st1 := by
                  rw [entryShape_cons]
                  rcases hso : storedOffset st1 with _ | o1
                  · simp
                  · have := hst1 o1 hso
                    rw [if_neg (by simp only [Option.some.injEq]; omega)]
                rw [hes1] at hih
                exact hih

theorem byteLen_cons (c : Char) (cs : List Char) :
    byteLen (c :: cs) = c.utf8Size + byteLen cs := by
  simp [byteLen]

theorem charIndicesFrom_pairwise (s : List Char) : ∀ (k : Nat),
    List.Pairwise (fun p q : Nat × Char => p.1 < q.1)
      (charIndicesFrom k s) := by
  induction s with
  | nil => intro k; simp [charIndicesFrom]
  | cons c cs ih =>
      intro k
      simp only [charIndicesFrom]
      refine List.pairwise_cons.mpr ⟨?_, ih (k + c.utf8Size)⟩
      intro q hq
      have := charIndicesFrom_le (k + c.utf8Size) cs q hq
      have := utf8Size_pos c
      omega

theorem charIndicesFrom_within (s : List Char) : ∀ (k : Nat),
    ∀ p ∈ charIndicesFrom k s, p.1 + p.2.utf8Size ≤ k + byteLen s := by
  induction s with
  | nil => intro k p hp; simp [charIndicesFrom] at hp
  | cons c cs ih =>
      intro k p hp
      rw [byteLen_cons]
      simp only [charIndicesFrom, List.mem_cons] at hp
      rcases hp with rfl | hp
      · simp only
        have : 0 ≤ byteLen cs := Nat.zero_le _
        omega
      · have := ih (k + c.utf8Size) p hp
        omega

theorem charIndicesFrom_no_straddle (s : List Char) : ∀ (k m : Nat),
    Boundary k s m →
    ∀ p ∈ charIndicesFrom k s, p.1 < m → p.1 + p.2.utf8Size ≤ m := by
  induction s with
  | nil => intro k m hb p hp; simp [charIndicesFrom] at hp
  | cons c cs ih =>
      intro k m hb p hp hlt
      simp only [charIndicesFrom, List.mem_cons] at hp
      have hsz := utf8Size_pos c
      rcases hp with rfl | hp
      · simp only at hlt ⊢
        rcases hb with hb | ⟨c', hc'⟩
        · rw [byteLen_cons] at hb
          omega
        · simp only [charIndicesFrom, List.mem_cons] at hc'
          rcases hc' with hc' | hc'
          · simp only [Prod.mk.injEq] at hc'
            omega
          · have := charIndicesFrom_le (k + c.utf8Size) cs (m, c') hc'
            omega
      · have hple := charIndicesFrom_le (k + c.utf8Size) cs p hp
        refine ih (k + c.utf8Size) m ?_ p hp hlt
        rcases hb with hb | ⟨c', hc'⟩
        · rw [byteLen_cons] at hb
          exact Or.inl (by omega)
        · simp only [charIndicesFrom, List.mem_cons] at hc'
          rcases hc' with hc' | hc'
          · simp only [Prod.mk.injEq] at hc'
            exact absurd hlt (by omega)
          · exact Or.inr ⟨c', hc'⟩

theorem boundary_succ (s : List Char) : ∀ (k : Nat),
    ∀ p ∈ charIndicesFrom k s, Boundary k s (p.1 + p.2.utf8Size) := by
  induction s with
  | nil => intro k p hp; simp [charIndicesFrom] at hp
  | cons c cs ih =>
      intro k p hp
      simp only [charIndicesFrom, List.mem_cons] at hp
      rcases hp with rfl | hp
      · simp only
        cases cs with
        | nil => exact Or.inl (by rw [byteLen_cons]; simp [byteLen])
        | cons c2 cs2 =>
            exact Or.inr ⟨c2, by
              simp [charIndicesFrom]⟩
      · rcases ih (k + c.utf8Size) p hp with hb | ⟨c', hc'⟩
        · exact Or.inl (by rw [byteLen_cons]; omega)
        · refine Or.inr ⟨c', ?_⟩
          simp only [charIndicesFrom, List.mem_cons]
          exact Or.inr hc'

theorem boundary_zero (s : List Char) : Boundary 0 s 0 := by
  cases s with
  | nil => exact Or.inl (by simp [byteLen])
  | cons c cs => exact Or.inr ⟨c, by simp [charIndicesFrom]⟩

theorem byteSlice_eq_filter (s : List Char) (a b : Nat) :
    byteSlice s a b =
      ((charIndicesFrom 0 s).filter
        (fun p => decide (a ≤ p.1 ∧ p.1 + p.2.utf8Size ≤ b))).map
        Prod.snd := by
  rw [byteSlice]
  generalize charIndicesFrom 0 s = l
  induction l with
  | nil => rfl
  | cons p rest ih =>
      by_cases hp : a ≤ p.1 ∧ p.1 + p.2.utf8Size ≤ b
      · simp [List.filterMap_cons, List.filter_cons, hp, ih]
      · simp [List.filterMap_cons, List.filter_cons, hp, ih]

theorem rebuildP_inside (rest : List (Nat × Char)) (f t : Nat)
    (rs : List (Nat × Nat))
    (hpw : List.Pairwise (fun p q : Nat × Char => p.1 < q.1) rest)
    (hall : ∀ p ∈ rest, f < p.1) :
    rebuildP rest ((f, t) :: rs) =
      rebuildP (rest.filter (fun p => decide (t < p.1))) rs := by
  induction rest with
  | nil => cases rs <;> simp [rebuildP]
  | cons p rest2 ih =>
      obtain ⟨o, c⟩ := p
      have ho : f < o := hall (o, c) (List.mem_cons_self _ _)
      obtain ⟨hhead, hpw2⟩ := List.pairwise_cons.mp hpw
      by_cases hot : o ≤ t
      · rw [rebuildP_cons_cons, if_neg (by omega), if_pos hot,
          if_neg (by omega), List.filter_cons,
          if_neg (by simp only [decide_eq_true_eq]; omega)]
        exact ih hpw2 (fun q hq => lt_trans ho (hhead q hq))
      · rw [rebuildP_cons_cons, if_neg (by omega), if_neg (by omega)]
        have hkeep : ((o, c) :: rest2).filter (fun p => decide (t < p.1)) =
            (o, c) :: rest2 := by
          rw [List.filter_eq_self]
          intro q hq
          simp only [List.mem_cons] at hq
          simp only [decide_eq_true_eq]
          rcases hq with rfl | hq
          · omega
          · have := hhead q hq
            omega
        rw [hkeep]

theorem rebuildP_split (Q : List (Nat × Char)) (f t : Nat) (cf : Char)
    (rs : List (Nat × Nat))
    (hpw : List.Pairwise (fun p q : Nat × Char => p.1 < q.1) Q)
    (hmem : (f, cf) ∈ Q) (hft : f ≤ t) :
    rebuildP Q ((f, t) :: rs) =
      (Q.filter (fun p => decide (p.1 < f))).map Prod.snd ++
        '?' :: rebuildP (Q.filter (fun p => decide (t < p.1))) rs := by
  induction Q with
  | nil => simp at hmem
  | cons p rest ih =>
      obtain ⟨o, c⟩ := p
      obtain ⟨hhead, hpw2⟩ := List.pairwise_cons.mp hpw
      rcases List.mem_cons.mp hmem with heq | hmem2
      · simp only [Prod.mk.injEq] at heq
        obtain ⟨hfo, -⟩ := heq
        rw [rebuildP_cons_cons, if_neg (by omega), if_pos (by omega),
          if_pos (by omega)]
        have h1 : ((o, c) :: rest).filter (fun p => decide (p.1 < f)) = [] := by
          rw [List.filter_eq_nil]
          intro q hq
          simp only [List.mem_cons] at hq
          simp only [decide_eq_true_eq, not_lt]
          rcases hq with rfl | hq
          · omega
          · have := hhead q hq
            omega
        have h2 : ((o, c) :: rest).filter (fun p => decide (t < p.1)) =
            rest.filter (fun p => decide (t < p.1)) := by
          rw [List.filter_cons, if_neg (by simp only [decide_eq_true_eq]; omega)]
        rw [h1, h2]
        simp only [List.map_nil, List.nil_append]
        congr 1
        exact rebuildP_inside rest f t rs hpw2
          (fun q hq => by have := hhead q hq; omega)
      · have hof : o < f := hhead (f, cf) hmem2
        rw [rebuildP_cons_cons, if_pos hof]
        have h1 : ((o, c) :: rest).filter (fun p => decide (p.1 < f)) =
            (o, c) :: rest.filter (fun p => decide (p.1 < f)) := by
          rw [List.filter_cons, if_pos (by simp only [decide_eq_true_eq]; omega)]
        have h2 : ((o, c) :: rest).filter (fun p => decide (t < p.1)) =
            rest.filter (fun p => decide (t < p.1)) := by
          rw [List.filter_cons, if_neg (by simp only [decide_eq_true_eq]; omega)]
        rw [h1, h2]
        simp only [List.map_cons, List.cons_append]
        congr 1
        exact ih hpw2 hmem2

/-- Bridge between the source `build_pos_query` loop and the pair-level
rebuild used by the round-trip argument, for range lists with the
properties the lexer guarantees. -/
theorem buildGo_eq_rebuildP (s : List Char) :
    ∀ (rs : List (Nat × Nat)) (last : Nat),
    List.Pairwise (fun a b : Nat × Nat => a.2 < b.1) rs →
    (∀ r ∈ rs, last ≤ r.1 ∧ r.1 < r.2) →
    (∀ r ∈ rs, (r.1, '{') ∈ charIndicesFrom 0 s ∧
      (r.2, '}') ∈ charIndicesFrom 0 s) →
    Boundary 0 s last →
    buildGo s ['?'] rs last =
      rebuildP ((charIndicesFrom 0 s).filter (fun p => decide (last ≤ p.1)))
        rs := by
  intro rs
  induction rs with
  | nil =>
      intro last hpw hlo hbr hbd
      rw [rebuildP_ranges_nil]
      simp only [buildGo]
      by_cases hl : last < byteLen s
      · rw [if_pos hl, byteSlice_eq_filter]
        congr 1
        apply List.filter_congr
        intro p hp
        rw [Bool.eq_iff_iff]
        simp only [decide_eq_true_eq]
        constructor
        · exact fun h => h.1
        · intro h
          refine ⟨h, ?_⟩
          have := charIndicesFrom_within s 0 p hp
          omega
      · rw [if_neg hl]
        have hnil : (charIndicesFrom 0 s).filter
            (fun p => decide (last ≤ p.1)) = [] := by
          rw [List.filter_eq_nil]
          intro p hp
          have h1 := charIndicesFrom_within s 0 p hp
          have h2 := utf8Size_pos p.2
          simp only [decide_eq_true_eq, not_le]
          omega
        rw [hnil]
        rfl
  | cons r rs' ih =>
      intro last hpw hlo hbr hbd
      obtain ⟨f, t⟩ := r
      obtain ⟨hhead, hpw2⟩ := List.pairwise_cons.mp hpw
      obtain ⟨hlf, hft⟩ := hlo (f, t) (List.mem_cons_self _ _)
      obtain ⟨hbf, hbt⟩ := hbr (f, t) (List.mem_cons_self _ _)
      simp only at hlf hft hbf hbt
      simp only [buildGo]
      have hmemQ : (f, '{') ∈ (charIndicesFrom 0 s).filter
          (fun p => decide (last ≤ p.1)) :=
        List.mem_filter.mpr ⟨hbf, by simp only [decide_eq_true_eq]; omega⟩
      have hpwQ := List.Pairwise.filter (fun p => decide (last ≤ p.1))
        (charIndicesFrom_pairwise s 0)
      rw [rebuildP_split _ f t '{' rs' hpwQ hmemQ (by omega)]
      have e1 : (if f > last then byteSlice s last f else []) =
          (((charIndicesFrom 0 s).filter
            (fun p => decide (last ≤ p.1))).filter
              (fun p => decide (p.1 < f))).map Prod.snd := by
        rw [List.filter_filter]
        by_cases hfl : last < f
        · rw [if_pos hfl, byteSlice_eq_filter]
          congr 1
          apply List.filter_congr
          intro p hp
          rw [Bool.eq_iff_iff]
          simp only [decide_eq_true_eq, Bool.and_eq_true]
          constructor
          · intro h
            have := utf8Size_pos p.2
            exact ⟨by omega, h.1⟩
          · intro h
            refine ⟨h.2, ?_⟩
            exact charIndicesFrom_no_straddle s 0 f (Or.inr ⟨'{', hbf⟩)
              p hp h.1
        · rw [if_neg hfl]
          symm
          rw [List.map_eq_nil, List.filter_eq_nil]
          intro p hp
          simp only [Bool.and_eq_true, decide_eq_true_eq, not_and, not_lt]
          intro hle
          omega
      have e2 : ((charIndicesFrom 0 s).filter
            (fun p => decide (last ≤ p.1))).filter
              (fun p => decide (t < p.1)) =
          (charIndicesFrom 0 s).filter (fun p => decide (t + 1 ≤ p.1)) := by
        rw [List.filter_filter]
        apply List.filter_congr
        intro p hp
        rw [Bool.eq_iff_iff]
        simp only [decide_eq_true_eq, Bool.and_eq_true]
        omega
      have e3 : max last (t + 1) = t + 1 := by omega
      rw [e1, e2, e3]
      have hb1 : Boundary 0 s (t + 1) := by
        have := boundary_succ s 0 (t, '}') hbt
        simpa using this
      have hrec := ih (t + 1) hpw2
        (by
          intro r' hr'
          have h1 := hhead r' hr'
          have h2 := (hlo r' (List.mem_cons_of_mem _ hr')).2
          exact ⟨by omega, h2⟩)
        (by intro r' hr'; exact hbr r' (List.mem_cons_of_mem _ hr'))
        hb1
      rw [hrec]
      simp

/-- C1: a `{{name}}`-shaped substring inside a single- or double-quoted
literal produces no occurrence.  First bullet: a step taken from a
string-interior state (`StringSingle`/`StringDouble`, with or without the
escape flag, which covers backslash and doubled-quote escaping) emits
nothing and never enters placeholder recognition (the resulting state
stores no offset, i.e. is not `CurlOpen`/`CurlClose`).  Second bullet:
every emitted range opens at a char consumed in the default state or in a
quote-closing state — never inside a literal — and that char is `{`, so
no occurrence is ever produced for braces scanned inside a literal. -/
theorem C1_no_occurrence_inside_literal :
    (∀ (e : Bool) (off : Nat) (c : Char),
        (lexStep (.StringSingle e) off c).2 = none ∧
        (lexStep (.StringDouble e) off c).2 = none ∧
        storedOffset (lexStep (.StringSingle e) off c).1 = none ∧
        storedOffset (lexStep (.StringDouble e) off c).1 = none) ∧
      ∀ (s : List Char) (r : Nat × Nat), r ∈ lexRanges s →
        ∀ p ∈ lexTrace .Sql (charIndicesFrom 0 s), p.2.1 = r.1 →
          (p.1 = .Sql ∨ p.1 = .StringSingleClosing ∨
            p.1 = .StringDoubleClosing) ∧ p.2.2 = '{' := by
  constructor
  · intro e off c
    refine ⟨?_, ?_, ?_, ?_⟩ <;>
      (simp only [lexStep]; split_ifs <;> simp [storedOffset])
  · intro s r hr p hp hpf
    exact lexList_open_state s 0 .Sql
      (by intro o ho; simp [storedOffset] at ho) r hr p hp hpf

theorem C1_no_occurrence_inside_literal_witness :
    (LexerState.Sql = LexerState.Sql ∨
        LexerState.Sql = LexerState.StringSingleClosing ∨
        LexerState.Sql = LexerState.StringDoubleClosing) ∧ '{' = '{' :=
  C1_no_occurrence_inside_literal.2 ['x', '{', '{', 'k', '}', '}'] (1, 5)
    (by decide) (.Sql, 1, '{') (by decide) rfl

/-- C5 (amended): each emitted occurrence's range is the inclusive
byte-index span in the original template: the byte at the range start is
an opening `{`, the byte at the range end the emitting `}` (both
single-byte chars on UTF-8 char boundaries), and the range is ordered. -/
theorem C5_ranges_are_byte_spans (s : List Char) (r : Nat × Nat)
    (h : r ∈ lexRanges s) :
    (r.1, '{') ∈ charIndicesFrom 0 s ∧ (r.2, '}') ∈ charIndicesFrom 0 s ∧
      r.1 < r.2 := by
  obtain ⟨hf, ht⟩ := lexList_braces s 0 .Sql
    (by intro o ho; simp [storedOffset] at ho) r h
  obtain ⟨-, hlt, -⟩ := lexList_bounds s 0 .Sql
    (by intro o ho; simp [storedOffset] at ho) r h
  rcases hf with hf | hf
  · exact ⟨hf, ht, hlt⟩
  · simp [storedOffset] at hf

theorem C5_ranges_are_byte_spans_witness :
    (2, '{') ∈ charIndicesFrom 0 ['é', '{', '{', 'a', '}', '}'] ∧
      (6, '}') ∈ charIndicesFrom 0 ['é', '{', '{', 'a', '}', '}'] ∧
      2 < 6 :=
  C5_ranges_are_byte_spans ['é', '{', '{', 'a', '}', '}'] (2, 6) (by decide)

/-- C6: within one pass the emitted ranges are strictly increasing and
non-overlapping (every range ends before the next one starts, and each
range is ordered), and lexing the Query Builder's rewritten output (the
ranges replaced by the `?` token) yields zero occurrences. -/
theorem C6_ordered_round_trip (s : List Char) :
    List.Pairwise (fun a b : Nat × Nat => a.2 < b.1) (lexRanges s) ∧
      (∀ r ∈ lexRanges s, r.1 < r.2) ∧
      lexRanges (build_pos_query s (lexRanges s) ['?']) = [] := by
  have hst0 : ∀ o, storedOffset LexerState.Sql = some o → o < 0 := by
    intro o ho
    simp [storedOffset] at ho
  have hpw := lexList_pairwise s 0 .Sql hst0
  refine ⟨hpw, ?_, ?_⟩
  · intro r hr
    exact (lexList_bounds s 0 .Sql hst0 r hr).2.1
  · have hbr : ∀ r ∈ lexRanges s, (r.1, '{') ∈ charIndicesFrom 0 s ∧
        (r.2, '}') ∈ charIndicesFrom 0 s := by
      intro r hr
      obtain ⟨hf, ht⟩ := lexList_braces s 0 .Sql hst0 r hr
      rcases hf with hf | hf
      · exact ⟨hf, ht⟩
      · simp [storedOffset] at hf
    have hlo : ∀ r ∈ lexRanges s, 0 ≤ r.1 ∧ r.1 < r.2 := by
      intro r hr
      exact ⟨Nat.zero_le _, (lexList_bounds s 0 .Sql hst0 r hr).2.1⟩
    have hb := buildGo_eq_rebuildP s (lexRanges s) 0 hpw hlo hbr
      (boundary_zero s)
    have hfilter : (charIndicesFrom 0 s).filter
        (fun p => decide (0 ≤ p.1)) = charIndicesFrom 0 s := by
      rw [List.filter_eq_self]
      intro p hp
      simp
    rw [hfilter] at hb
    rw [build_pos_query, hb, lexRanges, lexList_eq_nil_iff,
      charIndicesFrom_map_snd]
    have hg := roundTripG s 0 .Sql hst0
    rwa [entryShape_none .Sql _ (by rfl)] at hg

theorem C6_ordered_round_trip_witness : ((0 : Nat), (4 : Nat)).1 < (0, 4).2 :=
  (C6_ordered_round_trip ['{', '{', 'a', '}', '}', 'x']).2.1 (0, 4)
    (by decide)

/-- C9: for every identity and role set, the policy evaluator's `Or` node
with zero nested conditions evaluates to `false` and its `And` node with
zero nested conditions evaluates to `true`, and the schema validator's
`Or` node with zero nested conditions yields no error for any value. -/
theorem C9_empty_or_and (id : String) (roles : List String) (name : String)
    (value : XepakValue) :
    CheckAuthConf.is_allowed (.Or []) id roles = false ∧
      CheckAuthConf.is_allowed (.And []) id roles = true ∧
      apply_validator (.Or []) name value = .ok () := by
  refine ⟨?_, ?_, ?_⟩ <;>
    simp [CheckAuthConf.is_allowed, allowedAny, allowedAll, apply_validator,
      applyOr]

/-- C2 refutation: the checks of an `AuthorizeProcessor` with more than
one configured check are in fact AND-combined, because
`CheckAuthConf::normalize` rebuilds an `Or` node as `Self::And`.  The
authenticated caller `a` satisfies the first of the two checks
`[Id(a), Id(b)]`, yet authorization fails. -/
theorem C2_multi_check_and_combined :
    CheckAuthConf.is_allowed (.Id "a") "a" [] = true ∧
      AuthorizeProcessor.new [.Id "a", .Id "b"] =
        some (.And [.Id "a", .Id "b"]) ∧
      authorizeAllowed (AuthorizeProcessor.new [.Id "a", .Id "b"]) "a" [] =
        false := by
  refine ⟨?_, ?_, ?_⟩ <;>
    simp [CheckAuthConf.is_allowed, AuthorizeProcessor.new,
      CheckAuthConf.normalize, normalizeList, authorizeAllowed, allowedAll,
      allowedAny]

/-- C3 refutation: with exactly one configured check
`AuthorizeProcessor::new` stores `checks[0].clone()` without calling
`normalize`, so the policy `[Role(admin)]` keeps its lowercase role value
and does not authorize the caller `svcA` whose registry roles are
`{ADMIN}` — even though `normalize` would have produced `Role(ADMIN)`. -/
theorem C3_single_check_skips_normalize :
    registryAbc.get_auth_data "abc" = some ("svcA", ["ADMIN"]) ∧
      AuthorizeProcessor.new [.Role "admin"] = some (.Role "admin") ∧
      CheckAuthConf.normalize (.Role "admin") = .Role "ADMIN" ∧
      authorizeAllowed (AuthorizeProcessor.new [.Role "admin"]) "svcA"
        ["ADMIN"] = false := by
  refine ⟨rfl, ?_, ?_, ?_⟩ <;>
    simp [AuthorizeProcessor.new, CheckAuthConf.normalize, rustToUppercase,
      authorizeAllowed, CheckAuthConf.is_allowed]

/-- C4 refutation: on the template `{{{a}}` the third consecutive `{` is
silently ignored (the `'{'` arm never advances the count past 2, so the
`c > 2` guard that would abort is unreachable), an occurrence IS emitted
from that position, and its captured name `{a` contains a brace. -/
theorem C4_third_brace_emits :
    lexOccs ['{', '{', '{', 'a', '}', '}'] = [(['{', 'a'], 0, 5)] ∧
      '{' ∈ (['{', 'a'] : List Char) := by
  refine ⟨?_, by decide⟩
  rfl

/-- C5 refutation: the lexer reports byte-index spans, not character-index
spans.  In the template `é{{a}}` the placeholder runs from character
index 1 to character index 5, but `é` occupies two UTF-8 bytes, so the
emitted range is `(2, 6) ≠ (1, 5)`. -/
theorem C5_counterexample :
    lexRanges ['é', '{', '{', 'a', '}', '}'] = [(2, 6)] ∧
      ['é', '{', '{', 'a', '}', '}'][1]? = some '{' ∧
      ['é', '{', '{', 'a', '}', '}'][5]? = some '}' ∧
      ((2, 6) : Nat × Nat) ≠ (1, 5) := by
  refine ⟨rfl, rfl, rfl, by decide⟩

/-- C7 refutation of the range condition as stated: `2^63` is a finite
`f64` value strictly greater than `i64::MAX = 2^63 - 1`, hence outside
the 64-bit signed integer range, yet `as_int` accepts it, because the
code compares against `i64::MAX as f64`, which rounds up to `2^63`. -/
theorem C7_counterexample :
    XepakValue.as_int (.Float ((2 : ℚ) ^ 63)) = .ok ((2 : Int) ^ 63) ∧
      ((2 : Int) ^ 63 > 2 ^ 63 - 1) := by
  constructor
  · have hcast : ((2 : ℚ) ^ 63) = ((2 ^ 63 : ℤ) : ℚ) := by push_cast; ring
    have h0 : (0 : ℚ) ≤ 2 ^ 63 := by positivity
    have htr : ratTrunc ((2 : ℚ) ^ 63) = 2 ^ 63 := by
      rw [ratTrunc, if_pos h0, hcast, Int.floor_intCast]
    have hfract : ratFract ((2 : ℚ) ^ 63) = 0 := by
      rw [ratFract, htr]
      push_cast
      ring
    simp only [XepakValue.as_int, hfract, f64Epsilon, i64MaxAsF64,
      i64MinAsF64, htr, abs_zero]
    rw [if_neg (by norm_num), if_neg (by norm_num)]
  · norm_num

/-- C7 (amended): converting a `Float` value to `Integer` fails when the
fractional part's magnitude exceeds `f64::EPSILON`, or when the value
exceeds `i64::MAX as f64 = 2^63` or is below `i64::MIN as f64 = -2^63`
(so the single value `2^63`, although above `i64::MAX`, still converts);
otherwise it succeeds yielding the truncated integer part.  In particular
`Float(2.5)` fails citing a fractional-part reason and `Float(2.0)`
yields `2`. -/
theorem C7_float_to_int (q : ℚ) :
    ((∃ n, XepakValue.as_int (.Float q) = .ok n) ↔
      |ratFract q| ≤ f64Epsilon ∧ -(2 ^ 63) ≤ q ∧ q ≤ 2 ^ 63) ∧
      (∀ n, XepakValue.as_int (.Float q) = .ok n → n = ratTrunc q) ∧
      (|ratFract q| > f64Epsilon →
        XepakValue.as_int (.Float q) =
          .error (.ConvertValue .Float .Int (.fractionalPart q))) ∧
      XepakValue.as_int (.Float (5 / 2)) =
        .error (.ConvertValue .Float .Int (.fractionalPart (5 / 2))) ∧
      XepakValue.as_int (.Float 2) = .ok 2 := by
  have e1 : ∀ p : ℚ, XepakValue.as_int (.Float p) =
      if |ratFract p| > f64Epsilon then
        .error (.ConvertValue .Float .Int (.fractionalPart p))
      else if p > i64MaxAsF64 ∨ p < i64MinAsF64 then
        .error (.ConvertValue .Float .Int (.outOfRange p))
      else .ok (ratTrunc p) := fun _ => rfl
  refine ⟨?_, ?_, ?_, ?_, ?_⟩
  · rw [e1]
    split_ifs with h1 h2
    · refine iff_of_false (by simp) ?_
      rintro ⟨ha, -, -⟩
      exact absurd ha (not_le.mpr h1)
    · refine iff_of_false (by simp) ?_
      rintro ⟨-, hb, hc⟩
      rw [i64MaxAsF64, i64MinAsF64] at h2
      rcases h2 with h2 | h2 <;> linarith
    · refine iff_of_true ⟨ratTrunc q, rfl⟩ ⟨not_lt.mp h1, ?_, ?_⟩ <;>
        (rw [i64MaxAsF64, i64MinAsF64] at h2; push_neg at h2) <;> linarith
  · intro n hn
    rw [e1] at hn
    split_ifs at hn
    exact ((Except.ok.injEq _ _).mp hn).symm
  · intro h
    rw [e1, if_pos h]
  · have hfr : ratFract (5 / 2 : ℚ) = 1 / 2 := by
      rw [ratFract, ratTrunc, if_pos (by norm_num)]
      norm_num
    rw [e1, if_pos (by
      rw [hfr, f64Epsilon, abs_of_pos (by norm_num : (0 : ℚ) < 1 / 2)]
      norm_num)]
  · have hfr : ratFract (2 : ℚ) = 0 := by
      rw [ratFract, ratTrunc, if_pos (by norm_num)]
      norm_num
    rw [e1, if_neg (by rw [hfr, f64Epsilon]; norm_num),
      if_neg (by rw [i64MaxAsF64, i64MinAsF64]; push_neg; norm_num),
      ratTrunc, if_pos (by norm_num)]
    norm_num

theorem C7_float_to_int_witness :
    XepakValue.as_int (.Float (7 / 2)) =
      .error (.ConvertValue .Float .Int (.fractionalPart (7 / 2))) :=
  (C7_float_to_int (7 / 2)).2.2.1
    (by
      rw [ratFract, ratTrunc, if_pos (by norm_num), f64Epsilon]
      rw [show (7 / 2 : ℚ) - ⌊(7 / 2 : ℚ)⌋ = 1 / 2 by norm_num,
        abs_of_pos (by norm_num : (0 : ℚ) < 1 / 2)]
      norm_num)

/-- C8: `convert_with_schema` returns an input error naming the argument
when the name is unknown to the schema and `strict` is true; returns the
value unchanged when the name is unknown and `strict` is false; returns a
`Null` value unchanged whatever the declared type; and returns an error
whenever the declared target type is the `Null` type and the value is
non-`Null`. -/
theorem C8_convert_with_schema :
    (∀ (schema : Schema) (name : String) (value : XepakValue),
        schema.get name = none →
          convert_with_schema schema name value true =
            .error (.Input ("Input argument \"" ++ name ++
              "\" not allowed in this context!"))) ∧
      (∀ (schema : Schema) (name : String) (value : XepakValue),
        schema.get name = none →
          convert_with_schema schema name value false = .ok value) ∧
      (∀ (schema : Schema) (name : String) (aschema : ArgSchema)
          (strict : Bool), schema.get name = some aschema →
          convert_with_schema schema name .Null strict = .ok .Null) ∧
      (∀ (schema : Schema) (name : String) (aschema : ArgSchema)
          (strict : Bool) (value : XepakValue),
          schema.get name = some aschema → aschema.ty = .Null →
          value ≠ .Null →
          convert_with_schema schema name value strict =
            .error (.Input ("Can not convert argument \"" ++ name ++
              "\" to Null type!"))) := by
  refine ⟨?_, ?_, ?_, ?_⟩
  · intro schema name value h
    simp [convert_with_schema, h]
  · intro schema name value h
    simp [convert_with_schema, h]
  · intro schema name aschema strict h
    simp [convert_with_schema, h]
  · intro schema name aschema strict value h hty hv
    cases value <;> simp_all [convert_with_schema]

theorem C8_convert_with_schema_witness :
    convert_with_schema [] "x" (.Integer 1) true =
        .error (.Input ("Input argument \"" ++ "x" ++
          "\" not allowed in this context!")) ∧
      convert_with_schema [] "x" (.Integer 1) false = .ok (.Integer 1) ∧
      convert_with_schema demoNullSchema "y" .Null true = .ok .Null ∧
      convert_with_schema demoNullSchema "y" (.Integer 1) false =
        .error (.Input ("Can not convert argument \"" ++ "y" ++
          "\" to Null type!")) :=
  ⟨C8_convert_with_schema.1 [] "x" (.Integer 1) rfl,
    C8_convert_with_schema.2.1 [] "x" (.Integer 1) rfl,
    C8_convert_with_schema.2.2.1 demoNullSchema "y" _ true rfl,
    C8_convert_with_schema.2.2.2 demoNullSchema "y" _ false (.Integer 1) rfl
      rfl (by simp)⟩

/-- C10: when an argument name is present in both the path-derived map
and the query/body-derived map, `RequestArgs::get_arg_value` returns the
path-derived value. -/
theorem C10_path_precedence (ra : RequestArgs) (name : String)
    (v w : XepakValue) (hv : List.lookup name ra.path_args = some v)
    (hw : List.lookup name ra.args = some w) :
    ra.get_arg_value name = some v := by
  simp [RequestArgs.get_arg_value, hv]

theorem C10_path_precedence_witness :
    demoRequestArgs.get_arg_value "a" = some (.Text "from-path") :=
  C10_path_precedence demoRequestArgs "a" (.Text "from-path")
    (.Text "from-query") rfl rfl

end Xepak
